import Mathlib

/-
Verification development for an educational blockchain implementation
(blockchain.py and p2p_network.py).

Modelling conventions:
* Python floats (amounts, timestamps) are modelled as exact rationals (`Rat`).
* SHA-256 is modelled as an abstract function `H : HashInput → String`.
  The code always hashes one of three disjoint kinds of serialized content:
  the sorted-key JSON string of a transaction dict (signature excluded), the
  sorted-key JSON string of a block dict (stored hash excluded), or the
  concatenation of two hex hash strings (Merkle combination).  The JSON
  serialization step is injective on the structured content, so the hash is
  modelled as acting directly on the structured content via the `HashInput`
  sum type.  Collision resistance of SHA-256, where a claim needs it, appears
  as an explicit hypothesis on `H`.
* Wall-clock reads (`time.time()`) become an explicit `now : Rat` argument.
* The unbounded proof-of-work loop takes a fuel parameter and returns `none`
  on exhaustion; the Merkle-tree loop runs on fuel that is proven sufficient.
* Python dicts (`utxo_set`) are association lists with first-key update,
  matching dict insertion/update semantics for the operations used.
* Python exceptions (indexing `chain[-1]` of an empty list) are modelled as
  the operation failing without effect.
-/

structure Transaction where
  sender : String
  recipient : String
  amount : Rat
  transaction_id : String
  timestamp : Rat
  signature : Option String := none
deriving DecidableEq

/-- The dictionary produced by `Transaction.to_dict` (the signature is excluded). -/
structure TxContent where
  sender : String
  recipient : String
  amount : Rat
  transaction_id : String
  timestamp : Rat
deriving DecidableEq

def Transaction.to_dict (tx : Transaction) : TxContent :=
  { sender := tx.sender, recipient := tx.recipient, amount := tx.amount,
    transaction_id := tx.transaction_id, timestamp := tx.timestamp }

/-- A block.  The Python `Block` dataclass has no `hash` field; the attribute is
assigned after construction.  Here it is a field, `""` until assigned. -/
structure Block where
  index : Int
  timestamp : Rat
  transactions : List Transaction
  previous_hash : String
  nonce : Int
  difficulty : Int
  merkle_root : String
  hash : String := ""
deriving DecidableEq

/-- The dictionary hashed by `Block.calculate_hash` (stored hash excluded,
transactions reduced to their signature-free dicts). -/
structure BlockContent where
  index : Int
  timestamp : Rat
  transactions : List TxContent
  previous_hash : String
  nonce : Int
  difficulty : Int
  merkle_root : String
deriving DecidableEq

def Block.block_data (b : Block) : BlockContent :=
  { index := b.index, timestamp := b.timestamp,
    transactions := b.transactions.map Transaction.to_dict,
    previous_hash := b.previous_hash, nonce := b.nonce,
    difficulty := b.difficulty, merkle_root := b.merkle_root }

/-- The three kinds of serialized content fed to SHA-256 by the code. -/
inductive HashInput where
  | txStr (c : TxContent)
  | blockStr (c : BlockContent)
  | rawStr (s : String)
deriving DecidableEq

def Transaction.calculate_hash (H : HashInput → String) (tx : Transaction) : String :=
  H (.txStr tx.to_dict)

def Block.calculate_hash (H : HashInput → String) (b : Block) : String :=
  H (.blockStr b.block_data)

/-- Models `h.startswith("0" * difficulty)`; Python's `"0" * d` is empty for `d ≤ 0`. -/
def startsWithZeros (d : Int) (h : String) : Bool :=
  (List.replicate d.toNat '0').isPrefixOf h.data

/-- Python `int(x)` truncates toward zero, as does `Int` division. -/
def pyInt (q : Rat) : Int := q.num / (q.den : Int)

/-- Hash of the concatenation of two hash strings (Merkle combination step). -/
def pairHash (H : HashInput → String) (a b : String) : String :=
  H (.rawStr (a ++ b))

/-- One pass of the Merkle loop body: hash adjacent pairs.  Only ever applied
to even-length (padded) levels; the singleton case is unreachable there. -/
def merklePass (H : HashInput → String) : List String → List String
  | [] => []
  | [_] => []
  | a :: b :: rest => pairHash H a b :: merklePass H rest

/-- Odd-sized levels duplicate their last element before pairing. -/
def padLevel (l : List String) : List String :=
  if l.length % 2 = 1 then l ++ [l.getLast?.getD ("")] else l

/-- The `while len(tx_hashes) > 1` loop, with fuel.  With fuel at least the
initial list length the fuel never runs out (`merkleLoopFuel_eq_specRootFuel`
below proves fuel-independence), so this is a faithful rendering of the loop. -/
def merkleLoopFuel (H : HashInput → String) : Nat → List String → String
  | 0, l => l.headD ("0")
  | fuel + 1, l =>
    if l.length ≤ 1 then l.headD ("0")
    else merkleLoopFuel H fuel (merklePass H (padLevel l))

def calculate_merkle_root (H : HashInput → String) (transactions : List Transaction) : String :=
  if transactions.isEmpty then ("0")
  else
    let tx_hashes := transactions.map (fun tx => tx.calculate_hash H)
    merkleLoopFuel H tx_hashes.length tx_hashes

/-- Blockchain state: the fields of `Blockchain.__init__` that the verified
operations read or write (the wallet directory, used only for printing, is
omitted). -/
structure Blockchain where
  chain : List Block
  pending_transactions : List Transaction
  difficulty : Int
  utxo_set : List (String × Rat)
  mining_reward : Rat
  target_block_time : Rat
  last_mining_time : Rat
deriving DecidableEq

def create_genesis_block (H : HashInput → String) (difficulty : Int) (now : Rat) : Block :=
  let genesis_block : Block :=
    { index := 0, timestamp := now, transactions := [], previous_hash := "0",
      nonce := 0, difficulty := difficulty, merkle_root := "0", hash := "" }
  { genesis_block with hash := genesis_block.calculate_hash H }

def Blockchain.init (H : HashInput → String) (difficulty : Int) (now : Rat) : Blockchain :=
  { chain := [create_genesis_block H difficulty now], pending_transactions := [],
    difficulty := difficulty, utxo_set := [], mining_reward := 50,
    target_block_time := 10, last_mining_time := 0 }

/-- Body of the two balance loops: credit the recipient, debit the sender. -/
def applyTxToBalance (address : String) (balance : Rat) (tx : Transaction) : Rat :=
  let b1 := if tx.recipient = address then balance + tx.amount else balance
  if tx.sender = address then b1 - tx.amount else b1

def get_balance (s : Blockchain) (address : String) : Rat :=
  let fromChain :=
    s.chain.foldl (fun acc blk => blk.transactions.foldl (applyTxToBalance address) acc) 0
  s.pending_transactions.foldl (applyTxToBalance address) fromChain

def is_valid_transaction (s : Blockchain) (transaction : Transaction) : Bool :=
  if transaction.sender = ("Genesis") then true
  else if get_balance s transaction.sender < transaction.amount then false
  else
    !(s.pending_transactions.any fun pending_tx =>
      pending_tx.sender == transaction.sender &&
      pending_tx.transaction_id != transaction.transaction_id)

/-- A wallet, reduced to its signing and verifying capabilities. -/
structure Wallet where
  sign : TxContent → String
  verify : TxContent → String → Bool

def add_transaction (s : Blockchain) (sender recipient : String)
    (amount : Rat) (wallet : Wallet) (now : Rat) : Bool × Blockchain :=
  if sender ≠ ("Genesis") ∧ get_balance s sender < amount then (false, s)
  else
    let tx0 : Transaction :=
      { sender := sender, recipient := recipient, amount := amount,
        transaction_id := sender ++ "_" ++ recipient ++ "_" ++ toString (pyInt now),
        timestamp := now, signature := none }
    let transaction : Transaction := { tx0 with signature := some (wallet.sign tx0.to_dict) }
    if wallet.verify tx0.to_dict (wallet.sign tx0.to_dict) = false then (false, s)
    else if is_valid_transaction s transaction = false then (false, s)
    else (true, { s with pending_transactions := s.pending_transactions ++ [transaction] })

/-- Python dict lookup on an association list. -/
def dictLookup : List (String × Rat) → String → Option Rat
  | [], _ => none
  | p :: t, k => if p.1 = k then some p.2 else dictLookup t k

/-- Python dict assignment: overwrite the existing entry, else append. -/
def dictSet : List (String × Rat) → String → Rat → List (String × Rat)
  | [], k, v => [(k, v)]
  | p :: t, k, v => if p.1 = k then (k, v) :: t else p :: dictSet t k v

/-- Body of the `update_utxo_set` loop: default-to-zero, then add the amount. -/
def utxoAdd (u : List (String × Rat)) (tx : Transaction) : List (String × Rat) :=
  let u1 := if (dictLookup u tx.recipient).isNone then dictSet u tx.recipient 0 else u
  dictSet u1 tx.recipient ((dictLookup u1 tx.recipient).getD 0 + tx.amount)

def update_utxo_set (s : Blockchain) : Blockchain :=
  { s with utxo_set := s.chain.foldl (fun u blk => blk.transactions.foldl utxoAdd u) [] }

def adjust_difficulty (s : Blockchain) (now : Rat) : Blockchain :=
  if s.chain.length < 2 then s
  else
    let s1 :=
      if 0 < s.last_mining_time then
        let time_diff := now - s.last_mining_time
        if time_diff < s.target_block_time * (1 / 2) then
          { s with difficulty := s.difficulty + 1 }
        else if s.target_block_time * 2 < time_diff then
          { s with difficulty := max 1 (s.difficulty - 1) }
        else s
      else s
    { s1 with last_mining_time := now }

/-- The nonce search: increment the nonce, rehash, stop at the first hash with
the required zero prefix.  Returns the block with the winning nonce. -/
def powSearch (H : HashInput → String) (d : Int) : Block → Nat → Option Block
  | _, 0 => none
  | b, fuel + 1 =>
    if startsWithZeros d (Block.calculate_hash H { b with nonce := b.nonce + 1 }) then
      some { b with nonce := b.nonce + 1 }
    else powSearch H d { b with nonce := b.nonce + 1 } fuel

def mine_block (H : HashInput → String) (s : Blockchain) (miner_address : String)
    (now : Rat) (fuel : Nat) : Option Block × Blockchain :=
  if s.pending_transactions.isEmpty then (none, s)
  else
    match s.chain.getLast? with
    | none => (none, s)
    | some previous_block =>
      let new_index := previous_block.index + 1
      let reward_transaction : Transaction :=
        { sender := "System", recipient := miner_address, amount := s.mining_reward,
          transaction_id := "reward_" ++ toString new_index ++ "_" ++ toString (pyInt now),
          timestamp := now, signature := none }
      let all_transactions := s.pending_transactions ++ [reward_transaction]
      let new_block : Block :=
        { index := new_index, timestamp := now, transactions := all_transactions,
          previous_hash := previous_block.calculate_hash H, nonce := 0,
          difficulty := s.difficulty,
          merkle_root := calculate_merkle_root H all_transactions, hash := "" }
      match powSearch H s.difficulty new_block fuel with
      | none => (none, s)
      | some mined0 =>
        let mined : Block := { mined0 with hash := mined0.calculate_hash H }
        let s1 : Blockchain := { s with chain := s.chain ++ [mined], pending_transactions := [] }
        (some mined, adjust_difficulty (update_utxo_set s1) now)

/-- The body of the `is_chain_valid` loop from block 1 on: recompute the hash,
check the link to the previous block's stored hash, check proof-of-work. -/
def chainLinksValid (H : HashInput → String) : Block → List Block → Bool
  | _, [] => true
  | previous_block, current_block :: rest =>
    if current_block.calculate_hash H ≠ current_block.hash then false
    else if current_block.previous_hash ≠ previous_block.hash then false
    else if !(startsWithZeros current_block.difficulty current_block.hash) then false
    else chainLinksValid H current_block rest

def is_chain_valid (H : HashInput → String) (s : Blockchain) : Bool :=
  match s.chain with
  | [] => true
  | g :: rest => chainLinksValid H g rest

def get_latest_block (s : Blockchain) : Option Block := s.chain.getLast?

def is_block_valid (H : HashInput → String) (s : Blockchain) (block : Block) : Bool :=
  match s.chain.getLast? with
  | none => false
  | some latest =>
    if block.previous_hash ≠ latest.hash then false
    else if !(startsWithZeros block.difficulty block.hash) then false
    else if block.calculate_hash H ≠ block.hash then false
    else true

def add_block (H : HashInput → String) (s : Blockchain) (block : Block) : Bool × Blockchain :=
  if is_block_valid H s block then
    (true, update_utxo_set { s with chain := s.chain ++ [block] })
  else (false, s)

/-- The link/index loop of `P2PNode.validate_received_chain`. -/
def validateLinks : Block → List Block → Bool
  | _, [] => true
  | previous_block, current_block :: rest =>
    if current_block.previous_hash ≠ previous_block.hash then false
    else if current_block.index ≠ previous_block.index + 1 then false
    else validateLinks current_block rest

def validate_received_chain (chain_data : List Block) : Bool :=
  match chain_data with
  | [] => false
  | g :: rest =>
    if g.index ≠ 0 ∨ g.previous_hash ≠ ("0") then false
    else validateLinks g rest

def handle_chain_response (s : Blockchain) (chain_data : List Block) : Blockchain :=
  if s.chain.length < chain_data.length then
    if validate_received_chain chain_data then
      update_utxo_set { s with chain := chain_data }
    else s
  else s

/-- A default block, used only as the `getD` fallback at indices proven in range. -/
def dummyBlock : Block :=
  { index := 0, timestamp := 0, transactions := [], previous_hash := "",
    nonce := 0, difficulty := 0, merkle_root := "", hash := "" }

/-- Apply `f` to the element at position `j`, as Python `l[j] = f(l[j])`;
out-of-range positions leave the list unchanged. -/
def listModify (f : α → α) : Nat → List α → List α
  | _, [] => []
  | 0, a :: t => f a :: t
  | j + 1, a :: t => a :: listModify f j t

/-- A single-field overwrite of a committed transaction. -/
inductive TxMutation where
  | sender (v : String)
  | recipient (v : String)
  | amount (v : Rat)
  | txId (v : String)
  | timestamp (v : Rat)
  | signature (v : Option String)
deriving DecidableEq

def TxMutation.apply : TxMutation → Transaction → Transaction
  | .sender v, tx => { tx with sender := v }
  | .recipient v, tx => { tx with recipient := v }
  | .amount v, tx => { tx with amount := v }
  | .txId v, tx => { tx with transaction_id := v }
  | .timestamp v, tx => { tx with timestamp := v }
  | .signature v, tx => { tx with signature := v }

/-- A single-field overwrite of a committed block (or of one of its
transactions' fields). -/
inductive BlockMutation where
  | index (v : Int)
  | timestamp (v : Rat)
  | txAt (j : Nat) (tm : TxMutation)
  | previousHash (v : String)
  | nonce (v : Int)
  | difficulty (v : Int)
  | merkleRoot (v : String)
  | storedHash (v : String)
deriving DecidableEq

def BlockMutation.apply : BlockMutation → Block → Block
  | .index v, b => { b with index := v }
  | .timestamp v, b => { b with timestamp := v }
  | .txAt j tm, b => { b with transactions := listModify tm.apply j b.transactions }
  | .previousHash v, b => { b with previous_hash := v }
  | .nonce v, b => { b with nonce := v }
  | .difficulty v, b => { b with difficulty := v }
  | .merkleRoot v, b => { b with merkle_root := v }
  | .storedHash v, b => { b with hash := v }

/-- Whether a transaction mutation overwrites the signature field (the one
transaction field that is excluded from every hash). -/
def TxMutation.isSignature : TxMutation → Bool
  | .signature _ => true
  | _ => false

/-- Whether a block mutation overwrites a transaction's signature field. -/
def BlockMutation.touchesSignature : BlockMutation → Bool
  | .txAt _ tm => tm.isSignature
  | _ => false

/-- A default transaction, used only as a `getD` fallback at indices proven
in range. -/
def dummyTx : Transaction :=
  { sender := "", recipient := "", amount := 0, transaction_id := "", timestamp := 0,
    signature := none }

/-- Modelled from the spec: the per-block validity checks of section 4.5,
stated positionally — recomputed hash matches the stored hash, the link
matches the previous block's stored hash, and proof-of-work holds. -/
def blockOk (H : HashInput → String) (prev cur : Block) : Prop :=
  cur.calculate_hash H = cur.hash ∧
  cur.previous_hash = prev.hash ∧
  startsWithZeros cur.difficulty cur.hash = true

/-- Modelled from the spec: a chain is valid when every block after genesis
passes `blockOk` against its predecessor (genesis is trusted unconditionally). -/
def specChainValid (H : HashInput → String) (s : Blockchain) : Prop :=
  ∀ i, 1 ≤ i → i < s.chain.length →
    blockOk H (s.chain.getD (i - 1) dummyBlock) (s.chain.getD i dummyBlock)

/-- Modelled from the spec: the structural check of C4 — first block has index
0 and previous_hash "0", each later block links to the prior stored hash and
has the successor index. -/
def structOk (chain_data : List Block) : Prop :=
  chain_data ≠ [] ∧
  (chain_data.getD 0 dummyBlock).index = 0 ∧
  (chain_data.getD 0 dummyBlock).previous_hash = ("0") ∧
  ∀ i, 1 ≤ i → i < chain_data.length →
    (chain_data.getD i dummyBlock).previous_hash = (chain_data.getD (i - 1) dummyBlock).hash ∧
    (chain_data.getD i dummyBlock).index = (chain_data.getD (i - 1) dummyBlock).index + 1

/-- Modelled from the spec: one Merkle level — pair adjacent hashes, and a
trailing odd element is paired with a duplicate of itself. -/
def specPass (H : HashInput → String) : List String → List String
  | [] => []
  | [a] => [pairHash H a a]
  | a :: b :: rest => pairHash H a b :: specPass H rest

/-- Modelled from the spec: repeat `specPass` until one hash remains (fuel is
proven sufficient whenever it is at least the list length). -/
def specRootFuel (H : HashInput → String) : Nat → List String → String
  | _, [] => "0"
  | _, [a] => a
  | 0, _ :: _ :: _ => "0"
  | fuel + 1, a :: b :: rest => specRootFuel H fuel (specPass H (a :: b :: rest))

/-- Modelled from the spec: the reference Merkle root — sentinel "0" when
empty, else the iterated pairing of the transactions' content hashes. -/
def merkle_root_spec (H : HashInput → String) (transactions : List Transaction) : String :=
  if transactions.isEmpty then ("0")
  else
    let leaves := transactions.map (fun tx => tx.calculate_hash H)
    specRootFuel H leaves.length leaves

/-- States reachable from a freshly constructed blockchain by the four
state-changing operations, with arbitrary inputs at every step. -/
inductive Reachable (H : HashInput → String) : Blockchain → Prop
  | init (difficulty : Int) (now : Rat) : Reachable H (Blockchain.init H difficulty now)
  | addTx (s : Blockchain) (sender recipient : String) (amount : Rat) (w : Wallet) (now : Rat) :
      Reachable H s → Reachable H (add_transaction s sender recipient amount w now).2
  | mine (s : Blockchain) (miner : String) (now : Rat) (fuel : Nat) :
      Reachable H s → Reachable H (mine_block H s miner now fuel).2
  | addBlock (s : Blockchain) (b : Block) :
      Reachable H s → Reachable H (add_block H s b).2
  | chainResp (s : Blockchain) (chain_data : List Block) :
      Reachable H s → Reachable H (handle_chain_response s chain_data)

/-- A degenerate but perfectly legal stand-in for SHA-256: every input hashes
to "h".  Used for concrete counterexamples that do not rely on collision
behaviour. -/
def hashConst : HashInput → String := fun _ => "h"

/-- A stand-in hash that distinguishes block contents by nonce, used where a
witness must exhibit two different hash values. -/
def hashByNonce : HashInput → String
  | .blockStr c => if c.nonce = 5 then "a" else "0"
  | _ => "0"

/-- An honest wallet: verification of its own signatures always succeeds,
as with the RSA wallet in the source. -/
def trivialWallet : Wallet :=
  { sign := fun _ => "sig", verify := fun _ _ => true }

/-- A concrete pending transaction used by the concrete states below. -/
def aTx : Transaction :=
  { sender := "A", recipient := "B", amount := 10, transaction_id := "tid",
    timestamp := 0, signature := none }

def c3State : Blockchain :=
  { Blockchain.init hashConst 0 0 with pending_transactions := [aTx] }

def c5State : Blockchain := Blockchain.init hashConst 4 0

/-- A state whose head block carries an incorrect stored hash "X" (the kind of
state `demonstrate_immutability` creates in the source). -/
def c6State : Blockchain :=
  { Blockchain.init hashConst 0 0 with
      chain := [{ create_genesis_block hashConst 0 0 with hash := "X" }],
      pending_transactions := [aTx] }

def c7State : Blockchain :=
  { Blockchain.init hashConst 0 0 with pending_transactions := [aTx], last_mining_time := 1 }

def c2State0 : Blockchain := Blockchain.init hashConst 0 0

def c2State1 : Blockchain := (add_transaction c2State0 "Genesis" "A" 100 trivialWallet 0).2

def c2State2 : Blockchain := (mine_block hashConst c2State1 "M" 1 1).2

def c2State3 : Blockchain := (add_transaction c2State2 "A" "B" 10 trivialWallet 100).2

/-- Total amount received by an address over a transaction list (the only
quantity `update_utxo_set` accumulates — sent amounts are never subtracted). -/
def recvAmount (address : String) (txs : List Transaction) : Rat :=
  txs.foldl (fun acc tx => if tx.recipient = address then acc + tx.amount else acc) 0

def c10StateA : Blockchain := Blockchain.init hashConst 4 0

def c10StateB : Blockchain :=
  { Blockchain.init hashConst 4 0 with utxo_set := [("A", 999)] }

def c1Gen : Block := create_genesis_block hashConst 0 0

def c1Blk : Block :=
  { index := 1, timestamp := 0, transactions := [], previous_hash := "h", nonce := 0,
    difficulty := 0, merkle_root := "0", hash := "h" }

def c1State : Blockchain :=
  { Blockchain.init hashConst 0 0 with chain := [c1Gen, c1Blk] }

def c1wGen : Block := create_genesis_block hashByNonce 0 0

def c1wBlk : Block :=
  { index := 1, timestamp := 0, transactions := [], previous_hash := "0", nonce := 1,
    difficulty := 0, merkle_root := "0", hash := "0" }

def c1wState : Blockchain :=
  { Blockchain.init hashByNonce 0 0 with chain := [c1wGen, c1wBlk] }

theorem Block.calculate_hash_set_hash (H : HashInput → String) (b : Block) (v : String) :
    Block.calculate_hash H { b with hash := v } = Block.calculate_hash H b := rfl

theorem powSearch_some (H : HashInput → String) (d : Int) :
    ∀ (fuel : Nat) (b r : Block), powSearch H d b fuel = some r →
      startsWithZeros d (r.calculate_hash H) = true ∧
      r.previous_hash = b.previous_hash ∧ r.difficulty = b.difficulty ∧
      r.transactions = b.transactions ∧ r.hash = b.hash := by
  intro fuel
  induction fuel with
  | zero => intro b r h; simp [powSearch] at h
  | succ n ih =>
    intro b r h
    simp only [powSearch] at h
    split at h
    · cases h
      refine ⟨by assumption, rfl, rfl, rfl, rfl⟩
    · exact ih { b with nonce := b.nonce + 1 } r h

theorem update_utxo_set_chain (s : Blockchain) : (update_utxo_set s).chain = s.chain := rfl

theorem update_utxo_set_pending (s : Blockchain) :
    (update_utxo_set s).pending_transactions = s.pending_transactions := rfl

theorem update_utxo_set_difficulty (s : Blockchain) :
    (update_utxo_set s).difficulty = s.difficulty := rfl

theorem update_utxo_set_last_mining_time (s : Blockchain) :
    (update_utxo_set s).last_mining_time = s.last_mining_time := rfl

theorem update_utxo_set_target_block_time (s : Blockchain) :
    (update_utxo_set s).target_block_time = s.target_block_time := rfl

theorem adjust_difficulty_chain (s : Blockchain) (now : Rat) :
    (adjust_difficulty s now).chain = s.chain := by
  simp only [adjust_difficulty]
  split
  · rfl
  · split
    · split
      · rfl
      · split <;> rfl
    · rfl

/-- Unpacking of a successful `mine_block`: the success path, with the mined
block and intermediate state made explicit. -/
theorem mine_block_some (H : HashInput → String) (s : Blockchain) (miner_address : String)
    (now : Rat) (fuel : Nat) (b : Block) (s' : Blockchain)
    (h : mine_block H s miner_address now fuel = (some b, s')) :
    ∃ previous_block mined0,
      s.chain.getLast? = some previous_block ∧
      powSearch H s.difficulty
        { index := previous_block.index + 1, timestamp := now,
          transactions := s.pending_transactions ++
            [{ sender := "System", recipient := miner_address, amount := s.mining_reward,
               transaction_id := "reward_" ++ toString (previous_block.index + 1) ++ "_" ++
                 toString (pyInt now),
               timestamp := now, signature := none }],
          previous_hash := previous_block.calculate_hash H, nonce := 0,
          difficulty := s.difficulty,
          merkle_root := calculate_merkle_root H (s.pending_transactions ++
            [{ sender := "System", recipient := miner_address, amount := s.mining_reward,
               transaction_id := "reward_" ++ toString (previous_block.index + 1) ++ "_" ++
                 toString (pyInt now),
               timestamp := now, signature := none }]),
          hash := "" } fuel = some mined0 ∧
      b = { mined0 with hash := mined0.calculate_hash H } ∧
      s' = adjust_difficulty
        (update_utxo_set
          { s with chain := s.chain ++ [{ mined0 with hash := mined0.calculate_hash H }],
                   pending_transactions := [] }) now := by
  simp only [mine_block] at h
  split at h
  · cases h
  · split at h
    · cases h
    · rename_i previous_block heq
      split at h
      · cases h
      · rename_i mined0 hpow
        cases h
        exact ⟨previous_block, mined0, heq, hpow, rfl, rfl⟩

/-- Difficulty adjustment, characterized under the conditions that hold right
after a successful mine: at least two blocks and a prior adjustment check. -/
theorem adjust_difficulty_spec (s : Blockchain) (now : Rat)
    (h2 : 2 ≤ s.chain.length) (hl : 0 < s.last_mining_time) :
    (adjust_difficulty s now).difficulty =
      (if now - s.last_mining_time < s.target_block_time * (1 / 2) then s.difficulty + 1
       else if s.target_block_time * 2 < now - s.last_mining_time then max 1 (s.difficulty - 1)
       else s.difficulty) ∧
    (adjust_difficulty s now).last_mining_time = now := by
  simp only [adjust_difficulty]
  rw [if_neg (by omega), if_pos hl]
  refine ⟨?_, rfl⟩
  split_ifs <;> rfl

/-- C3: whenever `mine_block` returns a block, that block's stored hash equals
its recomputed content hash and begins with at least `difficulty` ASCII '0'
characters (the state's difficulty, which is also stored in the block). -/
theorem mined_block_hash_meets_difficulty (H : HashInput → String) (s : Blockchain)
    (miner : String) (now : Rat) (fuel : Nat) (b : Block) (s' : Blockchain)
    (h : mine_block H s miner now fuel = (some b, s')) :
    b.hash = b.calculate_hash H ∧
    startsWithZeros s.difficulty b.hash = true ∧
    b.difficulty = s.difficulty := by
  obtain ⟨pb, m0, hlast, hpow, hb, hs'⟩ := mine_block_some H s miner now fuel b s' h
  obtain ⟨hsw, hph, hd, htx, hh⟩ := powSearch_some H s.difficulty fuel _ m0 hpow
  subst hb
  exact ⟨rfl, hsw, hd⟩

theorem mined_block_hash_meets_difficulty_witness :
    ((mine_block hashConst c3State "M" 1 1).1.getD dummyBlock).hash =
      ((mine_block hashConst c3State "M" 1 1).1.getD dummyBlock).calculate_hash hashConst ∧
    startsWithZeros c3State.difficulty
      ((mine_block hashConst c3State "M" 1 1).1.getD dummyBlock).hash = true ∧
    ((mine_block hashConst c3State "M" 1 1).1.getD dummyBlock).difficulty = c3State.difficulty :=
  mined_block_hash_meets_difficulty hashConst c3State "M" 1 1
    ((mine_block hashConst c3State "M" 1 1).1.getD dummyBlock)
    (mine_block hashConst c3State "M" 1 1).2 (by with_unfolding_all decide)

/-- C5: `add_transaction` leaves the whole state unchanged on every failure
path, and never modifies the chain even on success. -/
theorem add_transaction_pure_on_failure (s : Blockchain) (sender recipient : String)
    (amount : Rat) (w : Wallet) (now : Rat) :
    ((add_transaction s sender recipient amount w now).1 = false →
      (add_transaction s sender recipient amount w now).2 = s) ∧
    (add_transaction s sender recipient amount w now).2.chain = s.chain := by
  simp only [add_transaction]
  split
  · exact ⟨fun _ => rfl, rfl⟩
  · split
    · exact ⟨fun _ => rfl, rfl⟩
    · split
      · exact ⟨fun _ => rfl, rfl⟩
      · exact ⟨fun hh => Bool.noConfusion hh, rfl⟩

theorem add_transaction_pure_on_failure_witness :
    (add_transaction c5State "A" "B" 5 trivialWallet 0).2 = c5State ∧
    (add_transaction c5State "A" "B" 5 trivialWallet 0).2.chain = c5State.chain :=
  ⟨(add_transaction_pure_on_failure c5State "A" "B" 5 trivialWallet 0).1 (by with_unfolding_all decide),
   (add_transaction_pure_on_failure c5State "A" "B" 5 trivialWallet 0).2⟩

/-- C6 (amended): the block appended by a successful `mine_block` has
`previous_hash` equal to the head's RECOMPUTED content hash
(`previous_block.calculate_hash()` in the source), which coincides with the
head's stored hash exactly when that stored hash is correct. -/
theorem mined_block_previous_hash_recomputed (H : HashInput → String) (s : Blockchain)
    (miner : String) (now : Rat) (fuel : Nat) (b : Block) (s' : Blockchain)
    (h : mine_block H s miner now fuel = (some b, s')) :
    ∃ head, s.chain.getLast? = some head ∧
      b.previous_hash = head.calculate_hash H ∧
      (head.hash = head.calculate_hash H → b.previous_hash = head.hash) := by
  obtain ⟨pb, m0, hlast, hpow, hb, hs'⟩ := mine_block_some H s miner now fuel b s' h
  obtain ⟨hsw, hph, hd, htx, hh⟩ := powSearch_some H s.difficulty fuel _ m0 hpow
  subst hb
  exact ⟨pb, hlast, hph, fun hc => hph.trans hc.symm⟩

/-- C6 counterexample: mining in `c6State` succeeds, the head's stored hash is
"X", yet the mined block's `previous_hash` is not "X" — the code links to the
head's recomputed hash, not the stored hash the claim names. -/
theorem mined_block_previous_hash_counterexample :
    (mine_block hashConst c6State "M" 1 1).1.isSome = true ∧
    (c6State.chain.getLast?.getD dummyBlock).hash = "X" ∧
    ((mine_block hashConst c6State "M" 1 1).1.getD dummyBlock).previous_hash ≠ "X" := by
  with_unfolding_all decide

theorem mined_block_previous_hash_recomputed_witness :
    ∃ head, c3State.chain.getLast? = some head ∧
      ((mine_block hashConst c3State "M" 1 1).1.getD dummyBlock).previous_hash =
        head.calculate_hash hashConst ∧
      (head.hash = head.calculate_hash hashConst →
        ((mine_block hashConst c3State "M" 1 1).1.getD dummyBlock).previous_hash = head.hash) :=
  mined_block_previous_hash_recomputed hashConst c3State "M" 1 1
    ((mine_block hashConst c3State "M" 1 1).1.getD dummyBlock)
    (mine_block hashConst c3State "M" 1 1).2 (by with_unfolding_all decide)

/-- C7: after a successful mine (with a previous adjustment check recorded,
i.e. `last_mining_time > 0`), the difficulty is bumped by 1 when the elapsed
time is below half the target, decremented with floor 1 when above twice the
target, and unchanged otherwise; the adjustment clock is reset to now. -/
theorem difficulty_adjusted_after_mine (H : HashInput → String) (s : Blockchain)
    (miner : String) (now : Rat) (fuel : Nat) (b : Block) (s' : Blockchain)
    (h : mine_block H s miner now fuel = (some b, s'))
    (hprev : 0 < s.last_mining_time) :
    s'.difficulty =
      (if now - s.last_mining_time < s.target_block_time * (1 / 2) then s.difficulty + 1
       else if s.target_block_time * 2 < now - s.last_mining_time then max 1 (s.difficulty - 1)
       else s.difficulty) ∧
    s'.last_mining_time = now := by
  obtain ⟨pb, m0, hlast, hpow, hb, hs'⟩ := mine_block_some H s miner now fuel b s' h
  subst hs'
  have hne : s.chain ≠ [] := by
    intro he
    rw [he] at hlast
    exact Option.noConfusion hlast
  have hpos : 0 < s.chain.length := List.length_pos.mpr hne
  have h2 : 2 ≤ (update_utxo_set
      { s with chain := s.chain ++ [{ m0 with hash := m0.calculate_hash H }],
               pending_transactions := [] }).chain.length := by
    rw [update_utxo_set_chain]
    simp only [List.length_append, List.length_cons, List.length_nil]
    omega
  exact adjust_difficulty_spec _ now h2 hprev

theorem difficulty_adjusted_after_mine_witness :
    (mine_block hashConst c7State "M" 2 1).2.difficulty =
      (if (2 : Rat) - c7State.last_mining_time < c7State.target_block_time * (1 / 2) then
        c7State.difficulty + 1
       else if c7State.target_block_time * 2 < (2 : Rat) - c7State.last_mining_time then
        max 1 (c7State.difficulty - 1)
       else c7State.difficulty) ∧
    (mine_block hashConst c7State "M" 2 1).2.last_mining_time = 2 :=
  difficulty_adjusted_after_mine hashConst c7State "M" 2 1
    ((mine_block hashConst c7State "M" 2 1).1.getD dummyBlock)
    (mine_block hashConst c7State "M" 2 1).2 (by with_unfolding_all decide) (by with_unfolding_all decide)

/-- The link/index loop of chain validation, restated positionally: element `i`
is checked against element `i` of the list shifted by the head `p`. -/
theorem validateLinks_iff (p : Block) (l : List Block) :
    validateLinks p l = true ↔
      ∀ i, i < l.length →
        (l.getD i dummyBlock).previous_hash = ((p :: l).getD i dummyBlock).hash ∧
        (l.getD i dummyBlock).index = ((p :: l).getD i dummyBlock).index + 1 := by
  induction l generalizing p with
  | nil => simp [validateLinks]
  | cons c t ih =>
    have hcons : validateLinks p (c :: t) = true ↔
        (c.previous_hash = p.hash ∧ c.index = p.index + 1 ∧ validateLinks c t = true) := by
      simp only [validateLinks]
      split_ifs with h1 h2
      · simp [h1]
      · simp [h1, h2]
      · rw [not_not] at h1 h2
        simp [h1, h2]
    rw [hcons, ih]
    constructor
    · rintro ⟨h1, h2, h3⟩ i hi
      cases i with
      | zero => simpa using ⟨h1, h2⟩
      | succ j =>
        have hj := h3 j (by simpa using hi)
        simpa using hj
    · intro h
      refine ⟨by simpa using (h 0 (by simp)).1, by simpa using (h 0 (by simp)).2, ?_⟩
      intro j hj
      have := h (j + 1) (by simpa using hj)
      simpa using this

/-- C4: the received-chain handler adopts the peer chain exactly when it is
strictly longer and passes the structural check, and that check is equivalent
to the spec description (`structOk`); otherwise the state is left unchanged. -/
theorem handle_chain_response_characterized (s : Blockchain) (chain_data : List Block) :
    (validate_received_chain chain_data = true ↔ structOk chain_data) ∧
    handle_chain_response s chain_data =
      (if s.chain.length < chain_data.length ∧ validate_received_chain chain_data = true
       then update_utxo_set { s with chain := chain_data } else s) := by
  constructor
  · cases chain_data with
    | nil => simp [validate_received_chain, structOk]
    | cons g rest =>
      simp only [validate_received_chain]
      split
      · rename_i h
        constructor
        · intro hh; exact absurd hh (by simp)
        · intro hs
          obtain ⟨-, h0, hp, -⟩ := hs
          simp only [List.getD_cons_zero] at h0 hp
          rcases h with h | h
          · exact absurd h0 h
          · exact absurd hp h
      · rename_i h
        obtain ⟨h0, hp⟩ := not_or.mp h
        rw [not_not] at h0 hp
        rw [validateLinks_iff]
        constructor
        · intro hv
          refine ⟨by simp, by simpa using h0, by simpa using hp, ?_⟩
          intro i h1 hlen
          obtain ⟨j, rfl⟩ : ∃ j, i = j + 1 := ⟨i - 1, by omega⟩
          have := hv j (by simpa using hlen)
          simpa using this
        · rintro ⟨-, -, -, hall⟩ j hj
          have := hall (j + 1) (by omega) (by simpa using hj)
          simpa using this
  · simp only [handle_chain_response]
    by_cases h1 : s.chain.length < chain_data.length
    · by_cases h2 : validate_received_chain chain_data = true
      · simp [h1, h2]
      · simp [h1, h2]
    · simp [h1]

theorem add_transaction_preserves_chain (s : Blockchain) (sender recipient : String)
    (amount : Rat) (w : Wallet) (now : Rat) :
    (add_transaction s sender recipient amount w now).2.chain = s.chain := by
  simp only [add_transaction]
  split
  · rfl
  · split
    · rfl
    · split
      · rfl
      · rfl

theorem mine_block_chain_extends (H : HashInput → String) (s : Blockchain) (miner : String)
    (now : Rat) (fuel : Nat) :
    ∃ t, (mine_block H s miner now fuel).2.chain = s.chain ++ t := by
  simp only [mine_block]
  split
  · exact ⟨[], (List.append_nil _).symm⟩
  · split
    · exact ⟨[], (List.append_nil _).symm⟩
    · split
      · exact ⟨[], (List.append_nil _).symm⟩
      · rename_i m0 hpow
        refine ⟨[{ m0 with hash := m0.calculate_hash H }], ?_⟩
        rw [show ((some { m0 with hash := m0.calculate_hash H }, adjust_difficulty (update_utxo_set
          { s with chain := s.chain ++ [{ m0 with hash := m0.calculate_hash H }],
                   pending_transactions := [] }) now) : Option Block × Blockchain).2 =
          adjust_difficulty (update_utxo_set
          { s with chain := s.chain ++ [{ m0 with hash := m0.calculate_hash H }],
                   pending_transactions := [] }) now from rfl]
        rw [adjust_difficulty_chain, update_utxo_set_chain]

theorem add_block_chain_extends (H : HashInput → String) (s : Blockchain) (b : Block) :
    ∃ t, (add_block H s b).2.chain = s.chain ++ t := by
  simp only [add_block]
  split
  · exact ⟨[b], by rw [show ((true, update_utxo_set { s with chain := s.chain ++ [b] }) :
      Bool × Blockchain).2 = update_utxo_set { s with chain := s.chain ++ [b] } from rfl,
      update_utxo_set_chain]⟩
  · exact ⟨[], (List.append_nil _).symm⟩

theorem validate_received_chain_head (chain_data : List Block)
    (hv : validate_received_chain chain_data = true) :
    ∃ g t, chain_data = g :: t ∧ g.index = 0 ∧ g.previous_hash = ("0") := by
  cases chain_data with
  | nil => simp [validate_received_chain] at hv
  | cons g t =>
    simp only [validate_received_chain] at hv
    split at hv
    · exact absurd hv (by simp)
    · rename_i h
      obtain ⟨h0, hp⟩ := not_or.mp h
      exact ⟨g, t, rfl, not_not.mp h0, not_not.mp hp⟩

theorem handle_chain_response_cases (s : Blockchain) (chain_data : List Block) :
    handle_chain_response s chain_data = s ∨
      (validate_received_chain chain_data = true ∧
        (handle_chain_response s chain_data).chain = chain_data) := by
  simp only [handle_chain_response]
  split
  · split
    · rename_i h2
      right
      exact ⟨h2, by rw [update_utxo_set_chain]⟩
    · left; rfl
  · left; rfl

/-- C9: every state reachable from a fresh blockchain by any sequence of
add_transaction, mine_block, add_block and handle_chain_response has a
non-empty chain whose first block has index 0 and previous_hash "0". -/
theorem genesis_shape_invariant (H : HashInput → String) (s : Blockchain)
    (hr : Reachable H s) :
    ∃ g rest, s.chain = g :: rest ∧ g.index = 0 ∧ g.previous_hash = ("0") := by
  induction hr with
  | init d now => exact ⟨create_genesis_block H d now, [], rfl, rfl, rfl⟩
  | addTx s sender recipient amount w now hs ih =>
    obtain ⟨g, rest, hc, h0, hp⟩ := ih
    exact ⟨g, rest, by rw [add_transaction_preserves_chain, hc], h0, hp⟩
  | mine s miner now fuel hs ih =>
    obtain ⟨g, rest, hc, h0, hp⟩ := ih
    obtain ⟨t, ht⟩ := mine_block_chain_extends H s miner now fuel
    exact ⟨g, rest ++ t, by rw [ht, hc, List.cons_append], h0, hp⟩
  | addBlock s b hs ih =>
    obtain ⟨g, rest, hc, h0, hp⟩ := ih
    obtain ⟨t, ht⟩ := add_block_chain_extends H s b
    exact ⟨g, rest ++ t, by rw [ht, hc, List.cons_append], h0, hp⟩
  | chainResp s chain_data hs ih =>
    rcases handle_chain_response_cases s chain_data with he | ⟨hv, hchain⟩
    · rw [he]; exact ih
    · obtain ⟨g, t, hcd, h0, hp⟩ := validate_received_chain_head chain_data hv
      exact ⟨g, t, by rw [hchain, hcd], h0, hp⟩

theorem genesis_shape_invariant_witness :
    ∃ g rest, (Blockchain.init hashConst 4 0).chain = g :: rest ∧
      g.index = 0 ∧ g.previous_hash = ("0") :=
  genesis_shape_invariant hashConst (Blockchain.init hashConst 4 0) (Reachable.init 4 0)

theorem is_valid_transaction_conflict (s : Blockchain) (t : Transaction)
    (hG : t.sender ≠ ("Genesis"))
    (hp : ∃ p ∈ s.pending_transactions, p.sender = t.sender ∧
      p.transaction_id ≠ t.transaction_id) :
    is_valid_transaction s t = false := by
  simp only [is_valid_transaction]
  rw [if_neg hG]
  split
  · rfl
  · obtain ⟨p, hmem, hsend, hid⟩ := hp
    simp only [Bool.not_eq_false', List.any_eq_true]
    exact ⟨p, hmem, by simp [hsend, hid]⟩

/-- C2 (amended): a second submission from a non-Genesis sender that already
has a pending transaction is rejected, provided the freshly generated id
`sender_recipient_int(now)` differs from the pending ids of that sender (the
generated id repeats when the recipient and the whole-second timestamp both
repeat, and then the duplicate is admitted). -/
theorem second_pending_submission_rejected (s : Blockchain) (sender recipient : String)
    (amount : Rat) (w : Wallet) (now : Rat)
    (hG : sender ≠ ("Genesis"))
    (hpend : ∃ p ∈ s.pending_transactions, p.sender = sender)
    (hid : ∀ p ∈ s.pending_transactions, p.sender = sender →
      p.transaction_id ≠ sender ++ "_" ++ recipient ++ "_" ++ toString (pyInt now)) :
    (add_transaction s sender recipient amount w now).1 = false := by
  simp only [add_transaction]
  split
  · rfl
  · split
    · rfl
    · split
      · rfl
      · rename_i hvalid
        exfalso
        apply hvalid
        apply is_valid_transaction_conflict s _ hG
        obtain ⟨p, hmem, hsend⟩ := hpend
        exact ⟨p, hmem, hsend, hid p hmem hsend⟩

/-- C2 counterexample: in `c2State3` the sender "A" has a pending transaction
(submitted at time 100), yet a second positive-amount submission from "A" in
the same whole second to the same recipient is ACCEPTED, because the generated
transaction id collides with the pending one and the double-spend scan only
rejects on a differing id. -/
theorem second_pending_submission_counterexample :
    (c2State3.pending_transactions.any fun p => p.sender == "A") = true ∧
    (0 : Rat) < 10 ∧
    (add_transaction c2State3 "A" "B" 10 trivialWallet 100).1 = true := by
  with_unfolding_all decide

theorem second_pending_submission_rejected_witness :
    (add_transaction c2State3 "A" "B" 10 trivialWallet 200).1 = false :=
  second_pending_submission_rejected c2State3 "A" "B" 10 trivialWallet 200
    (by decide) (by with_unfolding_all decide) (by with_unfolding_all decide)

theorem dictLookup_dictSet (u : List (String × Rat)) (k : String) (v : Rat) (k' : String) :
    dictLookup (dictSet u k v) k' = if k = k' then some v else dictLookup u k' := by
  induction u with
  | nil => simp [dictSet, dictLookup]
  | cons p t ih =>
    simp only [dictSet]
    split
    · rename_i hp
      by_cases hk : k = k' <;> simp [dictLookup, hp, hk]
    · rename_i hp
      simp only [dictLookup]
      by_cases hpk : p.1 = k'
      · have hk : k ≠ k' := fun he => hp (he ▸ hpk)
        simp [hpk, hk]
      · simp [hpk, ih]

theorem utxoAdd_lookup (u : List (String × Rat)) (tx : Transaction) (k : String) :
    dictLookup (utxoAdd u tx) k =
      if tx.recipient = k then some ((dictLookup u tx.recipient).getD 0 + tx.amount)
      else dictLookup u k := by
  cases hu : dictLookup u tx.recipient <;>
    · simp [utxoAdd, hu, dictLookup_dictSet]
      try (split_ifs <;> simp_all)

theorem recvAmount_acc (address : String) (txs : List Transaction) :
    ∀ a : Rat, txs.foldl (fun acc tx => if tx.recipient = address then acc + tx.amount
      else acc) a = a + recvAmount address txs := by
  induction txs with
  | nil => intro a; simp [recvAmount]
  | cons tx txs ih =>
    intro a
    simp only [recvAmount, List.foldl_cons]
    rw [ih, ih]
    split_ifs <;> ring

theorem recvAmount_cons (address : String) (tx : Transaction) (txs : List Transaction) :
    recvAmount address (tx :: txs) =
      (if tx.recipient = address then tx.amount else 0) + recvAmount address txs := by
  simp only [recvAmount, List.foldl_cons]
  rw [recvAmount_acc]
  split_ifs <;> simp [recvAmount]

theorem foldl_utxoAdd_lookup (txs : List Transaction) :
    ∀ (u : List (String × Rat)) (k : String),
      (dictLookup (txs.foldl utxoAdd u) k).getD 0 =
        (dictLookup u k).getD 0 + recvAmount k txs := by
  induction txs with
  | nil => intro u k; simp [recvAmount]
  | cons tx txs ih =>
    intro u k
    rw [List.foldl_cons, ih, recvAmount_cons, utxoAdd_lookup]
    by_cases hr : tx.recipient = k
    · subst hr
      simp
      ring
    · simp [hr]

theorem foldl_blocks_eq_flat (chain : List Block) :
    ∀ u : List (String × Rat),
      chain.foldl (fun u blk => blk.transactions.foldl utxoAdd u) u =
        (chain.flatMap fun b => b.transactions).foldl utxoAdd u := by
  induction chain with
  | nil => intro u; simp
  | cons b t ih =>
    intro u
    simp only [List.foldl_cons, List.flatMap_cons, List.foldl_append]
    exact ih _

/-- C10: two states agreeing on chain and mempool yield identical balances and
identical admission decisions regardless of their utxo_set; moreover the
utxo_set rebuilt by `update_utxo_set` holds, for every address, exactly the
sum of amounts RECEIVED over the chain (sent amounts are never subtracted). -/
theorem utxo_set_never_influences (s1 s2 : Blockchain)
    (hc : s1.chain = s2.chain) (hp : s1.pending_transactions = s2.pending_transactions) :
    (∀ a, get_balance s1 a = get_balance s2 a) ∧
    (∀ t, is_valid_transaction s1 t = is_valid_transaction s2 t) ∧
    (∀ sender recipient amount w now,
      (add_transaction s1 sender recipient amount w now).1 =
      (add_transaction s2 sender recipient amount w now).1) ∧
    (∀ k, (dictLookup (update_utxo_set s1).utxo_set k).getD 0 =
      recvAmount k (s1.chain.flatMap fun b => b.transactions)) := by
  have hbal : ∀ a, get_balance s1 a = get_balance s2 a := by
    intro a
    simp only [get_balance, hc, hp]
  have hval : ∀ t, is_valid_transaction s1 t = is_valid_transaction s2 t := by
    intro t
    simp only [is_valid_transaction, hp, hbal t.sender]
  refine ⟨hbal, hval, ?_, ?_⟩
  · intro sender recipient amount w now
    simp only [add_transaction, hbal, hval, hp]
    split_ifs <;> rfl
  · intro k
    show (dictLookup (s1.chain.foldl (fun u blk => blk.transactions.foldl utxoAdd u) []) k).getD 0
      = recvAmount k (s1.chain.flatMap fun b => b.transactions)
    rw [foldl_blocks_eq_flat, foldl_utxoAdd_lookup]
    simp [dictLookup]

theorem utxo_set_never_influences_witness :
    get_balance c10StateA "A" = get_balance c10StateB "A" :=
  (utxo_set_never_influences c10StateA c10StateB rfl rfl).1 "A"

theorem merklePass_length (H : HashInput → String) :
    ∀ l : List String, (merklePass H l).length = l.length / 2
  | [] => by simp [merklePass]
  | [a] => by simp [merklePass]
  | a :: b :: rest => by
    have hr := merklePass_length H rest
    show (pairHash H a b :: merklePass H rest).length = (a :: b :: rest).length / 2
    simp only [List.length_cons, hr]
    omega

theorem specPass_length (H : HashInput → String) :
    ∀ l : List String, (specPass H l).length = (l.length + 1) / 2
  | [] => by simp [specPass]
  | [a] => by simp [specPass]
  | a :: b :: rest => by
    have hr := specPass_length H rest
    show (pairHash H a b :: specPass H rest).length = ((a :: b :: rest).length + 1) / 2
    simp only [List.length_cons, hr]
    omega

/-- Global padding followed by pairing coincides with the spec's pass, which
pairs a trailing odd element with a duplicate of itself. -/
theorem merklePass_padLevel (H : HashInput → String) :
    ∀ l : List String, merklePass H (padLevel l) = specPass H l
  | [] => by simp [padLevel, merklePass, specPass]
  | [a] => by simp [padLevel, merklePass, specPass, pairHash]
  | a :: b :: rest => by
    rcases Nat.mod_two_eq_zero_or_one rest.length with he | ho
    · have hmod : (a :: b :: rest).length % 2 ≠ 1 := by
        simp only [List.length_cons]
        omega
      rw [padLevel, if_neg hmod]
      have hrec := merklePass_padLevel H rest
      rw [padLevel, if_neg (by omega : ¬rest.length % 2 = 1)] at hrec
      show pairHash H a b :: merklePass H rest = pairHash H a b :: specPass H rest
      rw [hrec]
    · have hne : rest ≠ [] := by
        intro h
        rw [h] at ho
        simp at ho
      have hmod : (a :: b :: rest).length % 2 = 1 := by
        simp only [List.length_cons]
        omega
      rw [padLevel, if_pos hmod]
      have hlast : (a :: b :: rest).getLast?.getD ("") = rest.getLast?.getD ("") := by
        obtain ⟨r0, rrest, rfl⟩ : ∃ r0 rrest, rest = r0 :: rrest := by
          cases rest with
          | nil => exact absurd rfl hne
          | cons r0 rrest => exact ⟨r0, rrest, rfl⟩
        rw [List.getLast?_cons_cons, List.getLast?_cons_cons]
      rw [hlast]
      show pairHash H a b :: merklePass H (rest ++ [rest.getLast?.getD ("")]) =
        pairHash H a b :: specPass H rest
      have hrec := merklePass_padLevel H rest
      rw [padLevel, if_pos (by omega : rest.length % 2 = 1)] at hrec
      rw [hrec]

/-- The source loop and the spec recursion agree whenever each side's fuel is
at least the level size (in particular the fuel the code supplies never runs
out: the result is fuel-independent above the list length). -/
theorem merkleLoopFuel_eq_specRootFuel (H : HashInput → String) :
    ∀ (fuel1 : Nat) (l : List String) (fuel2 : Nat),
      l.length ≤ fuel1 → l.length ≤ fuel2 →
      merkleLoopFuel H fuel1 l = specRootFuel H fuel2 l := by
  intro fuel1
  induction fuel1 with
  | zero =>
    intro l fuel2 h1 h2
    have : l = [] := List.length_eq_zero.mp (Nat.le_zero.mp h1)
    subst this
    cases fuel2 <;> rfl
  | succ n ih =>
    intro l fuel2 h1 h2
    match l with
    | [] => cases fuel2 <;> rfl
    | [a] => cases fuel2 <;> rfl
    | a :: b :: rest =>
      have hlen : (a :: b :: rest).length = rest.length + 2 := by simp
      show (if (a :: b :: rest).length ≤ 1 then (a :: b :: rest).headD ("")
        else merkleLoopFuel H n (merklePass H (padLevel (a :: b :: rest)))) =
        specRootFuel H fuel2 (a :: b :: rest)
      rw [if_neg (by omega)]
      match fuel2 with
      | m + 1 =>
        show merkleLoopFuel H n (merklePass H (padLevel (a :: b :: rest))) =
          specRootFuel H m (specPass H (a :: b :: rest))
        rw [merklePass_padLevel]
        apply ih
        · rw [specPass_length]
          rw [hlen] at h1
          omega
        · rw [specPass_length]
          rw [hlen] at h2
          omega

/-- C8: the code's `calculate_merkle_root` equals the reference definition
from the spec (sentinel "0" for empty input, content-hash leaves, odd level
padded by duplicating its last element, adjacent pairs replaced by the hash
of the concatenation of the two hash strings, repeated to a single root). -/
theorem calculate_merkle_root_eq_spec (H : HashInput → String)
    (transactions : List Transaction) :
    calculate_merkle_root H transactions = merkle_root_spec H transactions := by
  simp only [calculate_merkle_root, merkle_root_spec]
  split
  · rfl
  · exact merkleLoopFuel_eq_specRootFuel H _ _ _ le_rfl le_rfl

theorem listModify_length (f : α → α) :
    ∀ (j : Nat) (l : List α), (listModify f j l).length = l.length
  | 0, [] => rfl
  | _ + 1, [] => rfl
  | 0, _ :: _ => rfl
  | j + 1, a :: t => by
    simp only [listModify, List.length_cons, listModify_length f j t]

theorem listModify_getD_self (f : α → α) (d : α) :
    ∀ (j : Nat) (l : List α), j < l.length → (listModify f j l).getD j d = f (l.getD j d)
  | _, [], h => by simp at h
  | 0, a :: t, _ => by simp [listModify]
  | j + 1, a :: t, h => by
    simp only [listModify, List.getD_cons_succ]
    exact listModify_getD_self f d j t (by simpa using h)

theorem listModify_getD_other (f : α → α) (d : α) :
    ∀ (j i : Nat) (l : List α), i ≠ j → (listModify f j l).getD i d = l.getD i d
  | _, _, [], _ => by simp [listModify]
  | 0, 0, a :: t, h => absurd rfl h
  | 0, i + 1, a :: t, _ => by simp [listModify]
  | j + 1, 0, a :: t, _ => by simp [listModify]
  | j + 1, i + 1, a :: t, h => by
    simp only [listModify, List.getD_cons_succ]
    exact listModify_getD_other f d j i t (by omega)

theorem listModify_ne (f : α → α) (d : α) :
    ∀ (j : Nat) (l : List α), listModify f j l ≠ l →
      j < l.length ∧ f (l.getD j d) ≠ l.getD j d
  | 0, [], h => absurd rfl h
  | _ + 1, [], h => absurd rfl h
  | 0, a :: t, h => by
    refine ⟨by simp, ?_⟩
    intro he
    apply h
    simp only [listModify, List.getD_cons_zero] at he ⊢
    rw [he]
  | j + 1, a :: t, h => by
    have ht : listModify f j t ≠ t := by
      intro he
      apply h
      simp only [listModify]
      rw [he]
    obtain ⟨h1, h2⟩ := listModify_ne f d j t ht
    exact ⟨by simp; omega, by simpa using h2⟩

theorem txMutation_to_dict_ne (tm : TxMutation) (tx : Transaction)
    (hne : tm.apply tx ≠ tx) (hsig : tm.isSignature = false) :
    (tm.apply tx).to_dict ≠ tx.to_dict := by
  cases tm with
  | sender v =>
    intro hd
    have hv : v = tx.sender := congrArg TxContent.sender hd
    exact hne (by rw [show TxMutation.apply (.sender v) tx = { tx with sender := v } from rfl, hv])
  | recipient v =>
    intro hd
    have hv : v = tx.recipient := congrArg TxContent.recipient hd
    exact hne (by
      rw [show TxMutation.apply (.recipient v) tx = { tx with recipient := v } from rfl, hv])
  | amount v =>
    intro hd
    have hv : v = tx.amount := congrArg TxContent.amount hd
    exact hne (by rw [show TxMutation.apply (.amount v) tx = { tx with amount := v } from rfl, hv])
  | txId v =>
    intro hd
    have hv : v = tx.transaction_id := congrArg TxContent.transaction_id hd
    exact hne (by
      rw [show TxMutation.apply (.txId v) tx = { tx with transaction_id := v } from rfl, hv])
  | timestamp v =>
    intro hd
    have hv : v = tx.timestamp := congrArg TxContent.timestamp hd
    exact hne (by
      rw [show TxMutation.apply (.timestamp v) tx = { tx with timestamp := v } from rfl, hv])
  | signature v => exact absurd hsig (by simp [TxMutation.isSignature])

theorem blockMutation_apply_hash (m : BlockMutation) (b : Block)
    (hhash : ∀ v, m ≠ .storedHash v) : (m.apply b).hash = b.hash := by
  cases m with
  | storedHash v => exact absurd rfl (hhash v)
  | index v => rfl
  | timestamp v => rfl
  | txAt j tm => rfl
  | previousHash v => rfl
  | nonce v => rfl
  | difficulty v => rfl
  | merkleRoot v => rfl

/-- Any single-field mutation other than of the stored hash or of a
transaction signature changes the hashed block content. -/
theorem blockMutation_data_ne (m : BlockMutation) (b : Block)
    (hchange : m.apply b ≠ b) (hsig : m.touchesSignature = false)
    (hhash : ∀ v, m ≠ .storedHash v) :
    (m.apply b).block_data ≠ b.block_data := by
  cases m with
  | index v =>
    intro hd
    have hv : v = b.index := congrArg BlockContent.index hd
    exact hchange (by rw [show BlockMutation.apply (.index v) b = { b with index := v } from rfl, hv])
  | timestamp v =>
    intro hd
    have hv : v = b.timestamp := congrArg BlockContent.timestamp hd
    exact hchange (by
      rw [show BlockMutation.apply (.timestamp v) b = { b with timestamp := v } from rfl, hv])
  | previousHash v =>
    intro hd
    have hv : v = b.previous_hash := congrArg BlockContent.previous_hash hd
    exact hchange (by
      rw [show BlockMutation.apply (.previousHash v) b = { b with previous_hash := v } from rfl,
        hv])
  | nonce v =>
    intro hd
    have hv : v = b.nonce := congrArg BlockContent.nonce hd
    exact hchange (by rw [show BlockMutation.apply (.nonce v) b = { b with nonce := v } from rfl,
      hv])
  | difficulty v =>
    intro hd
    have hv : v = b.difficulty := congrArg BlockContent.difficulty hd
    exact hchange (by
      rw [show BlockMutation.apply (.difficulty v) b = { b with difficulty := v } from rfl, hv])
  | merkleRoot v =>
    intro hd
    have hv : v = b.merkle_root := congrArg BlockContent.merkle_root hd
    exact hchange (by
      rw [show BlockMutation.apply (.merkleRoot v) b = { b with merkle_root := v } from rfl, hv])
  | storedHash v => exact absurd rfl (hhash v)
  | txAt j tm =>
    intro hd
    have htx : (listModify tm.apply j b.transactions).map Transaction.to_dict =
        b.transactions.map Transaction.to_dict := congrArg BlockContent.transactions hd
    have hltx : listModify tm.apply j b.transactions ≠ b.transactions := by
      intro he
      exact hchange (by
        rw [show BlockMutation.apply (.txAt j tm) b =
          { b with transactions := listModify tm.apply j b.transactions } from rfl, he])
    obtain ⟨hj, hne⟩ := listModify_ne tm.apply dummyTx j b.transactions hltx
    apply txMutation_to_dict_ne tm (b.transactions.getD j dummyTx) hne hsig
    have h1 := List.getD_map (listModify tm.apply j b.transactions) dummyTx Transaction.to_dict
      (n := j)
    have h2 := List.getD_map b.transactions dummyTx Transaction.to_dict (n := j)
    rw [listModify_getD_self tm.apply dummyTx j b.transactions hj] at h1
    rw [← h1, htx, h2]

theorem chainLinksValid_iff (H : HashInput → String) (p : Block) (l : List Block) :
    chainLinksValid H p l = true ↔
      ∀ i, i < l.length → blockOk H ((p :: l).getD i dummyBlock) (l.getD i dummyBlock) := by
  induction l generalizing p with
  | nil => simp [chainLinksValid]
  | cons c t ih =>
    have hcons : chainLinksValid H p (c :: t) = true ↔
        (blockOk H p c ∧ chainLinksValid H c t = true) := by
      simp only [chainLinksValid, blockOk]
      split_ifs with h1 h2 h3
      · simp [h1]
      · simp [h1, h2]
      · rw [not_not] at h1 h2
        simp only [Bool.not_eq_true', Bool.not_eq_false] at h3
        simp [h1, h2, h3]
      · rw [not_not] at h1 h2
        simp only [Bool.not_eq_true'] at h3
        simp [h1, h2, h3]
    rw [hcons, ih]
    constructor
    · rintro ⟨h1, h3⟩ i hi
      cases i with
      | zero => simpa using h1
      | succ j =>
        have hj := h3 j (by simpa using hi)
        simpa using hj
    · intro h
      refine ⟨by simpa using h 0 (by simp), ?_⟩
      intro j hj
      have := h (j + 1) (by simpa using hj)
      simpa using this

theorem is_chain_valid_iff (H : HashInput → String) (s : Blockchain) :
    is_chain_valid H s = true ↔ specChainValid H s := by
  cases hc : s.chain with
  | nil =>
    constructor
    · intro _ i h1 hlen
      rw [hc] at hlen
      simp at hlen
    · intro _
      simp [is_chain_valid, hc]
  | cons g rest =>
    rw [show is_chain_valid H s = chainLinksValid H g rest from by
      simp [is_chain_valid, hc]]
    rw [chainLinksValid_iff]
    unfold specChainValid
    rw [hc]
    constructor
    · intro h i h1 hlen
      obtain ⟨j, rfl⟩ : ∃ j, i = j + 1 := ⟨i - 1, by omega⟩
      have := h j (by simpa using hlen)
      simpa using this
    · intro h j hj
      have := h (j + 1) (by omega) (by simpa using hj)
      simpa using this

/-- C1 (amended): a chain is accepted by `is_chain_valid` exactly when it
satisfies the per-block validity invariant (which trusts genesis
unconditionally); and mutating any single field of a committed block at a
position after genesis — or of one of its transactions, the hash-exempt
signature field aside — invalidates the chain, provided the hash function
does not collide on the changed block content (the collision-resistance
assumption on SHA-256). -/
theorem chain_validity_and_tamper_detection (H : HashInput → String) (s : Blockchain) :
    (is_chain_valid H s = true ↔ specChainValid H s) ∧
    (∀ (i : Nat) (m : BlockMutation),
      is_chain_valid H s = true →
      1 ≤ i → i < s.chain.length →
      m.apply (s.chain.getD i dummyBlock) ≠ s.chain.getD i dummyBlock →
      m.touchesSignature = false →
      ((m.apply (s.chain.getD i dummyBlock)).block_data ≠
          (s.chain.getD i dummyBlock).block_data →
        H (.blockStr (m.apply (s.chain.getD i dummyBlock)).block_data) ≠
        H (.blockStr (s.chain.getD i dummyBlock).block_data)) →
      is_chain_valid H { s with chain := listModify m.apply i s.chain } = false) := by
  refine ⟨is_chain_valid_iff H s, ?_⟩
  intro i m hvalid h1 hlen hchange hsig hcoll
  rcases Bool.eq_false_or_eq_true
    (is_chain_valid H { s with chain := listModify m.apply i s.chain }) with hres | hres
  swap
  · exact hres
  exfalso
  cases hc : s.chain with
  | nil =>
    rw [hc] at hlen
    simp at hlen
  | cons g rest =>
    obtain ⟨j, rfl⟩ : ∃ j, i = j + 1 := ⟨i - 1, by omega⟩
    rw [hc] at hlen hchange hcoll hres
    have hjlen : j < rest.length := by
      simp only [List.length_cons] at hlen
      omega
    -- the original block at position j+1 and its validity fact
    have horig := (chainLinksValid_iff H g rest).mp
      (by simpa [is_chain_valid, hc] using hvalid) j hjlen
    -- validity of the mutated chain at the same position
    have hmutch : listModify m.apply (j + 1) (g :: rest) = g :: listModify m.apply j rest := rfl
    rw [hmutch] at hres
    have hmut := (chainLinksValid_iff H g (listModify m.apply j rest)).mp
      (by simpa [is_chain_valid] using hres) j
      (by rw [listModify_length]; exact hjlen)
    rw [listModify_getD_self m.apply dummyBlock j rest hjlen] at hmut
    simp only [List.getD_cons_succ] at hchange hcoll
    obtain ⟨hmut1, -, -⟩ := hmut
    obtain ⟨horig1, -, -⟩ := horig
    by_cases hm : ∃ v, m = .storedHash v
    · obtain ⟨v, rfl⟩ := hm
      have hcalc : (BlockMutation.apply (.storedHash v) (rest.getD j dummyBlock)).calculate_hash H
          = (rest.getD j dummyBlock).calculate_hash H := rfl
      rw [hcalc, horig1] at hmut1
      -- hmut1 : stored hash = v, so the mutation did not change the block
      have hv : v = (rest.getD j dummyBlock).hash := hmut1.symm
      exact hchange (by
        rw [show BlockMutation.apply (.storedHash v) (rest.getD j dummyBlock) =
          { rest.getD j dummyBlock with hash := v } from rfl, hv])
    · push_neg at hm
      have hdata := blockMutation_data_ne m (rest.getD j dummyBlock) hchange hsig hm
      have hhs := blockMutation_apply_hash m (rest.getD j dummyBlock) hm
      apply hcoll hdata
      show (m.apply (rest.getD j dummyBlock)).calculate_hash H =
        (rest.getD j dummyBlock).calculate_hash H
      rw [hmut1, hhs, horig1]

/-- C1 counterexample: `c1State` is a valid chain, yet overwriting a single
field (the nonce) of its committed genesis block leaves `is_chain_valid`
true — the loop starts at block 1 and never validates genesis, so the claim's
"any committed block" fails at block 0. -/
theorem chain_validity_counterexample :
    is_chain_valid hashConst c1State = true ∧
    BlockMutation.apply (.nonce 7) (c1State.chain.getD 0 dummyBlock) ≠
      c1State.chain.getD 0 dummyBlock ∧
    is_chain_valid hashConst
      { c1State with
          chain := listModify (BlockMutation.apply (.nonce 7)) 0 c1State.chain } = true := by
  with_unfolding_all decide

theorem chain_validity_and_tamper_detection_witness :
    is_chain_valid hashByNonce
      { c1wState with
          chain := listModify (BlockMutation.apply (.nonce 5)) 1 c1wState.chain } = false :=
  (chain_validity_and_tamper_detection hashByNonce c1wState).2 1 (.nonce 5)
    (by with_unfolding_all decide) (by decide) (by with_unfolding_all decide)
    (by with_unfolding_all decide) (by decide) (by with_unfolding_all decide)
